import Mathlib

/-!
# A verification development for the `rule_engine` crate

This file gives a shallow embedding of the core of `src/lib.rs` — the
three-valued `Status` with its `BitAnd`/`BitOr` truth tables, the
`Constraint` predicate layer (including a faithful model of Rust's
`str::parse::<i32>`), the recursive `Rule` tree and its evaluator
`Rule::check`, and the `RuleResult` output tree — together with theorems
settling the specification's claims about them.

Machine-integer caveat made explicit: in the `NumberOf` arm of
`Rule::check` the source computes `children.len() - count` on `usize`.
When `count > children.len()` this subtraction underflows, which is an
arithmetic-overflow program error in Rust (a panic under the default,
overflow-checked profile).  The embedding therefore returns an
`Option RuleResult`: `none` models that failure path, and `some` models
normal completion.  All other arms are total.
-/

set_option maxHeartbeats 1000000

-- ***********************************************************************
-- STATUS  (src/lib.rs lines 9-40)
-- ***********************************************************************

/-- The status of a rule check (`enum Status` in `src/lib.rs`). -/
inductive Status where
  /-- Rule was satisfied -/
  | Met
  /-- Rule was not satisfied -/
  | NotMet
  /-- There was not enough information to evaluate -/
  | Unknown
deriving DecidableEq, Repr

/-- `impl BitAnd for Status`: the three-valued AND, with the match arms in
source order: `(Met, Met) => Met`, `(NotMet, _) | (_, NotMet) => NotMet`,
`(_, _) => Unknown`. -/
def Status.bitand : Status → Status → Status
  | Status.Met, Status.Met => Status.Met
  | Status.NotMet, _ => Status.NotMet
  | _, Status.NotMet => Status.NotMet
  | _, _ => Status.Unknown

/-- `impl BitOr for Status`: the three-valued OR, with the match arms in
source order: `(NotMet, NotMet) => NotMet`, `(Met, _) | (_, Met) => Met`,
`(_, _) => Unknown`. -/
def Status.bitor : Status → Status → Status
  | Status.NotMet, Status.NotMet => Status.NotMet
  | Status.Met, _ => Status.Met
  | _, Status.Met => Status.Met
  | _, _ => Status.Unknown

-- ***********************************************************************
-- Rust i32 parsing  (`val.parse::<i32>()` used by Constraint::check)
-- ***********************************************************************

/-- `i32::MAX`. -/
def i32Max : Int := 2147483647

/-- `i32::MIN`. -/
def i32Min : Int := -2147483648

/-- Rust `i32::checked_mul`: the product if it fits in `i32`, otherwise
`None`. -/
def checkedMulI32 (a b : Int) : Option Int :=
  if i32Min ≤ a * b ∧ a * b ≤ i32Max then some (a * b) else none

/-- Rust `i32::checked_add`: the sum if it fits in `i32`, otherwise
`None`. -/
def checkedAddI32 (a b : Int) : Option Int :=
  if i32Min ≤ a + b ∧ a + b ≤ i32Max then some (a + b) else none

/-- Rust `i32::checked_sub`: the difference if it fits in `i32`, otherwise
`None`. -/
def checkedSubI32 (a b : Int) : Option Int :=
  if i32Min ≤ a - b ∧ a - b ≤ i32Max then some (a - b) else none

/-- `char::to_digit(10)`: the numeric value of a decimal ASCII digit,
`None` for every other character. -/
def charDigit (c : Char) : Option Int :=
  if c.isDigit then some ((c.toNat : Int) - 48) else none

/-- The digit-accumulation loop of Rust's `from_str_radix` at radix 10:
starting from `result`, for each character take its digit value (failing on
a non-digit), then `result = result.checked_mul(10)?` followed by
`checked_add` of the digit when parsing a positive number and `checked_sub`
when parsing a negative one. -/
def parseDigits (isPositive : Bool) : List Char → Int → Option Int
  | [], result => some result
  | c :: cs, result =>
    match charDigit c with
    | none => none
    | some x =>
      match checkedMulI32 result 10 with
      | none => none
      | some m =>
        match (if isPositive then checkedAddI32 m x else checkedSubI32 m x) with
        | none => none
        | some r => parseDigits isPositive cs r

/-- `str::parse::<i32>` on the character list of the input: an empty input
and a lone sign are rejected, an optional leading `+`/`-` selects the sign,
and the remaining characters run through the checked accumulation loop
starting from 0. -/
def parseI32Chars : List Char → Option Int
  | [] => none
  | ['+'] => none
  | ['-'] => none
  | '+' :: digits => parseDigits true digits 0
  | '-' :: digits => parseDigits false digits 0
  | digits => parseDigits true digits 0

/-- `str::parse::<i32>` (`val.parse::<i32>()` in `Constraint::check`). -/
def parseI32 (s : String) : Option Int :=
  parseI32Chars s.data

-- ***********************************************************************
-- CONSTRAINT  (src/lib.rs lines 153-208)
-- ***********************************************************************

/-- `enum Constraint` in `src/lib.rs` (the integer payloads are `i32` in
the source; they are embedded as `Int`, with the 32-bit bound enforced
where the source enforces it, namely in parsing). -/
inductive Constraint where
  | StringEquals (s : String)
  | IntEquals (i : Int)
  | IntRange (start stop : Int)
  | Boolean (b : Bool)
deriving DecidableEq, Repr

/-- `Constraint::check` from `src/lib.rs`: string equality, parsed integer
equality, parsed inclusive integer range, or case-insensitive boolean
comparison (`val.to_lowercase() == "true"`). -/
def Constraint.check (c : Constraint) (val : String) : Status :=
  match c with
  | Constraint.StringEquals s =>
    if val = s then Status.Met else Status.NotMet
  | Constraint.IntEquals i =>
    match parseI32 val with
    | some v => if v = i then Status.Met else Status.NotMet
    | none => Status.NotMet
  | Constraint.IntRange start stop =>
    match parseI32 val with
    | some v => if start ≤ v ∧ v ≤ stop then Status.Met else Status.NotMet
    | none => Status.NotMet
  | Constraint.Boolean b =>
    let bool_val := val.toLower = "true"
    if bool_val = b then Status.Met else Status.NotMet

-- ***********************************************************************
-- Rule and RuleResult  (src/lib.rs lines 42-151, 210-220)
-- ***********************************************************************

/-- `enum Rule` in `src/lib.rs`.  The leaf variant is called `Rule::Rule`
in the source; here it is `Rule.Leaf` because a constructor cannot shadow
its own type's name. -/
inductive Rule where
  | And (rules : List Rule)
  | Or (rules : List Rule)
  | NumberOf (n : Nat) (rules : List Rule)
  | Leaf (desc : String) (field : String) (constraint : Constraint)

/-- `struct RuleResult` in `src/lib.rs`. -/
structure RuleResult where
  /-- Human-friendly description of the rule -/
  name : String
  /-- top-level status of this result -/
  status : Status
  /-- Results of any sub-rules -/
  children : List RuleResult

/-- The fact mapping `BTreeMap<String, String>`, embedded as an
association list queried with `List.lookup`. -/
def FactSet := List (String × String)

/-- Rust `usize` subtraction under the default overflow-checked profile:
`a - b` when it does not underflow, `none` (an arithmetic-overflow panic in
the source) when `b > a`. -/
def usizeSub (a b : Nat) : Option Nat :=
  if b ≤ a then some (a - b) else none

/-- The name `format!("At least {} of", count)` given to a `NumberOf`
result node. -/
def numberOfName (n : Nat) : String :=
  "At least " ++ toString n ++ " of"

mutual
/-- `Rule::check` from `src/lib.rs`: depth-first evaluation of a rule tree
against a fact set.  `And` folds the children's statuses with `&` from
`Status::Met`; `Or` folds with `|` from `Status::NotMet`; `NumberOf n`
counts `Met` and `NotMet` children, is `Met` when `met_count >= n`,
otherwise compares `failed_count` with `children.len() - n` — a `usize`
subtraction that underflows when `n > children.len()`, modeled by
`usizeSub` returning `none` (the panic path); a leaf looks its field up in
the fact set, delegating to `Constraint::check` when present and returning
`Status::Unknown` when absent.  `none` propagates from children: a panic
anywhere aborts the whole evaluation. -/
def Rule.check : Rule → FactSet → Option RuleResult
  | Rule.And rules, info =>
    match Rule.checkList rules info with
    | none => none
    | some children =>
      some ⟨"And", children.foldl (fun st r => st.bitand r.status) Status.Met, children⟩
  | Rule.Or rules, info =>
    match Rule.checkList rules info with
    | none => none
    | some children =>
      some ⟨"Or", children.foldl (fun st r => st.bitor r.status) Status.NotMet, children⟩
  | Rule.NumberOf n rules, info =>
    match Rule.checkList rules info with
    | none => none
    | some children =>
      let met_count := children.countP (fun r => r.status == Status.Met)
      let failed_count := children.countP (fun r => r.status == Status.NotMet)
      match (if met_count ≥ n then some Status.Met
             else match usizeSub children.length n with
                  | none => none
                  | some slack =>
                    some (if failed_count > slack then Status.NotMet else Status.Unknown)) with
      | none => none
      | some status => some ⟨numberOfName n, status, children⟩
  | Rule.Leaf desc field constraint, info =>
    match info.lookup field with
    | some s => some ⟨desc, constraint.check s, []⟩
    | none => some ⟨desc, Status.Unknown, []⟩

/-- Evaluation of a list of sibling rules in order (the
`rules.iter().map(|c| c.check(info)).collect()` part of `Rule::check`),
propagating a panic (`none`) from any child. -/
def Rule.checkList : List Rule → FactSet → Option (List RuleResult)
  | [], _ => some []
  | r :: rs, info =>
    match Rule.check r info, Rule.checkList rs info with
    | some a, some l => some (a :: l)
    | _, _ => none
end

-- ***********************************************************************
-- Characterization of i32 parsing (claim-side grammar)
-- ***********************************************************************

/-- The exact (unbounded) integer denoted by a digit string, accumulated
left to right from `acc`. -/
def accDigits (acc : Int) (l : List Char) : Int :=
  l.foldl (fun a c => 10 * a + ((c.toNat : Int) - 48)) acc

/-- The exact integer denoted by a digit string. -/
def digitsVal (l : List Char) : Int := accDigits 0 l

/-- The exact integer denoted by a digit string negated digit by digit,
accumulated left to right from `acc` (the shape of the subtracting loop
used for negative numbers). -/
def negAccDigits (acc : Int) (l : List Char) : Int :=
  l.foldl (fun a c => 10 * a - ((c.toNat : Int) - 48)) acc

/-- The claim's description of the accepted integer strings, body: at
least one ASCII digit, denoting (with the sign applied) a value
representable as a signed 32-bit integer. -/
def specSigned (sign : Int) (ds : List Char) : Option Int :=
  if ds ≠ [] ∧ ds.all Char.isDigit = true ∧ i32Min ≤ sign * digitsVal ds ∧
      sign * digitsVal ds ≤ i32Max
  then some (sign * digitsVal ds) else none

/-- The claim's description of parsing, written from its words rather than
from the source, for comparison with `parseI32Chars`: an optional leading
sign followed by ASCII digits denoting a value representable as a signed
32-bit integer; everything else is rejected. -/
def specParseI32Chars : List Char → Option Int
  | '+' :: ds => specSigned 1 ds
  | '-' :: ds => specSigned (-1) ds
  | ds => specSigned 1 ds

/-- `specParseI32Chars` on a string's characters. -/
def specParseI32 (s : String) : Option Int := specParseI32Chars s.data

-- ***********************************************************************
-- Well-formed trees and totality of evaluation
-- ***********************************************************************

mutual
/-- A rule tree in which every `NumberOf` node's threshold is at most its
child count — exactly the trees on which the `usize` subtraction
`children.len() - n` in `Rule::check` cannot underflow. -/
def Rule.wellFormed : Rule → Bool
  | Rule.And rules => Rule.wellFormedList rules
  | Rule.Or rules => Rule.wellFormedList rules
  | Rule.NumberOf n rules => decide (n ≤ rules.length) && Rule.wellFormedList rules
  | Rule.Leaf _ _ _ => true

/-- `Rule.wellFormed` on every rule of a list. -/
def Rule.wellFormedList : List Rule → Bool
  | [] => true
  | r :: rs => Rule.wellFormed r && Rule.wellFormedList rs
end

-- ***********************************************************************
-- Shape mirroring
-- ***********************************************************************

mutual
/-- The 1:1 shape relation of the spec between a rule tree and a result
tree: an `And` node yields a result named `"And"`, an `Or` node one named
`"Or"`, a `NumberOf n` node one named `"At least {n} of"`, and a leaf one
named by its description with no result children; combinator results carry
exactly one child result per child rule, in the same order. -/
def Rule.mirrors : Rule → RuleResult → Bool
  | Rule.And rules, res => res.name == "And" && Rule.mirrorsList rules res.children
  | Rule.Or rules, res => res.name == "Or" && Rule.mirrorsList rules res.children
  | Rule.NumberOf n rules, res =>
    res.name == numberOfName n && Rule.mirrorsList rules res.children
  | Rule.Leaf desc _ _, res => res.name == desc && res.children.isEmpty

/-- `Rule.mirrors` pairwise, in order, with equal lengths. -/
def Rule.mirrorsList : List Rule → List RuleResult → Bool
  | [], [] => true
  | r :: rs, a :: l => Rule.mirrors r a && Rule.mirrorsList rs l
  | _, _ => false
end

-- ***********************************************************************
-- Demonstration tree and facts  (src/main.rs)
-- ***********************************************************************

/-- The rule tree built by the demonstration entry point in
`src/main.rs`. -/
def demoTree : Rule :=
  Rule.And [
    Rule.Leaf "Name is John Doe" "name" (Constraint.StringEquals "John Doe"),
    Rule.Or [
      Rule.Leaf "Favorite number is 10" "fav_number" (Constraint.IntEquals 10),
      Rule.Leaf "Fav number between 11 and 16" "fav_number" (Constraint.IntRange 11 16)
    ]
  ]

/-- The fact set of the demonstration entry point. -/
def demoFacts : FactSet := [("name", "John Doe"), ("fav_number", "10")]

-- ***********************************************************************
-- Helper lemmas: checkList and the status folds
-- ***********************************************************************

theorem checkList_length (rs : List Rule) (info : FactSet) :
    ∀ l, Rule.checkList rs info = some l → l.length = rs.length := by
  induction rs with
  | nil =>
    intro l h
    simp only [Rule.checkList] at h
    simp [← Option.some_inj.mp h]
  | cons r rest ih =>
    intro l h
    simp only [Rule.checkList] at h
    cases ha : Rule.check r info with
    | none => rw [ha] at h; simp at h
    | some a =>
      cases hl : Rule.checkList rest info with
      | none => rw [ha, hl] at h; simp at h
      | some l2 =>
        rw [ha, hl] at h
        simp only [Option.some_inj] at h
        subst h
        simp [ih l2 hl]

theorem bitand_right_notMet : ∀ st : Status, st.bitand Status.NotMet = Status.NotMet := by
  intro st; cases st <;> rfl

theorem bitand_left_notMet : ∀ st : Status, Status.NotMet.bitand st = Status.NotMet := by
  intro st; cases st <;> rfl

theorem foldl_bitand_notMet (ss : List Status) :
    ss.foldl Status.bitand Status.NotMet = Status.NotMet := by
  induction ss with
  | nil => rfl
  | cons a ss ih => simpa [List.foldl_cons, bitand_left_notMet] using ih

theorem foldl_bitand_of_mem_notMet (ss : List Status) :
    ∀ st : Status, Status.NotMet ∈ ss → ss.foldl Status.bitand st = Status.NotMet := by
  induction ss with
  | nil => intro st h; cases h
  | cons a ss ih =>
    intro st h
    rcases List.mem_cons.mp h with h1 | h2
    · subst h1
      simpa [List.foldl_cons, bitand_right_notMet] using foldl_bitand_notMet ss
    · exact ih _ h2

theorem foldl_bitand_all_met (ss : List Status) (h : ∀ s ∈ ss, s = Status.Met) :
    ss.foldl Status.bitand Status.Met = Status.Met := by
  induction ss with
  | nil => rfl
  | cons a ss ih =>
    have ha : a = Status.Met := h a (List.mem_cons_self a ss)
    subst ha
    exact ih fun s hs => h s (List.mem_cons_of_mem _ hs)

theorem foldl_bitand_unknown (ss : List Status) (h : Status.NotMet ∉ ss) :
    ss.foldl Status.bitand Status.Unknown = Status.Unknown := by
  induction ss with
  | nil => rfl
  | cons a ss ih =>
    have ha : a ≠ Status.NotMet := fun hc => h (hc ▸ List.mem_cons_self a ss)
    have hs : Status.NotMet ∉ ss := fun hc => h (List.mem_cons_of_mem _ hc)
    cases a with
    | Met => simpa [List.foldl_cons, Status.bitand] using ih hs
    | NotMet => exact absurd rfl ha
    | Unknown => simpa [List.foldl_cons, Status.bitand] using ih hs

theorem foldl_bitand_met_unknown (ss : List Status) (h : Status.NotMet ∉ ss)
    (h2 : ∃ s ∈ ss, s ≠ Status.Met) :
    ss.foldl Status.bitand Status.Met = Status.Unknown := by
  induction ss with
  | nil => rcases h2 with ⟨s, hs, _⟩; cases hs
  | cons a ss ih =>
    have ha : a ≠ Status.NotMet := fun hc => h (hc ▸ List.mem_cons_self a ss)
    have hs : Status.NotMet ∉ ss := fun hc => h (List.mem_cons_of_mem _ hc)
    cases a with
    | Met =>
      rcases h2 with ⟨s, hmem, hne⟩
      rcases List.mem_cons.mp hmem with h1 | h2'
    
      · exact absurd h1 hne
      · exact ih hs ⟨s, h2', hne⟩
    | NotMet => exact absurd rfl ha
    | Unknown =>
      simpa [List.foldl_cons, Status.bitand] using foldl_bitand_unknown ss hs

theorem bitor_right_met : ∀ st : Status, st.bitor Status.Met = Status.Met := by
  intro st; cases st <;> rfl

theorem bitor_left_met : ∀ st : Status, Status.Met.bitor st = Status.Met := by
  intro st; cases st <;> rfl

theorem foldl_bitor_met (ss : List Status) :
    ss.foldl Status.bitor Status.Met = Status.Met := by
  induction ss with
  | nil => rfl
  | cons a ss ih => simpa [List.foldl_cons, bitor_left_met] using ih

theorem foldl_bitor_of_mem_met (ss : List Status) :
    ∀ st : Status, Status.Met ∈ ss → ss.foldl Status.bitor st = Status.Met := by
  induction ss with
  | nil => intro st h; cases h
  | cons a ss ih =>
    intro st h
    rcases List.mem_cons.mp h with h1 | h2
    · subst h1
      simpa [List.foldl_cons, bitor_right_met] using foldl_bitor_met ss
    · exact ih _ h2

theorem foldl_bitor_all_notMet (ss : List Status) (h : ∀ s ∈ ss, s = Status.NotMet) :
    ss.foldl Status.bitor Status.NotMet = Status.NotMet := by
  induction ss with
  | nil => rfl
  | cons a ss ih =>
    have ha : a = Status.NotMet := h a (List.mem_cons_self a ss)
    subst ha
    exact ih fun s hs => h s (List.mem_cons_of_mem _ hs)

theorem foldl_bitor_unknown (ss : List Status) (h : Status.Met ∉ ss) :
    ss.foldl Status.bitor Status.Unknown = Status.Unknown := by
  induction ss with
  | nil => rfl
  | cons a ss ih =>
    have ha : a ≠ Status.Met := fun hc => h (hc ▸ List.mem_cons_self a ss)
    have hs : Status.Met ∉ ss := fun hc => h (List.mem_cons_of_mem _ hc)
    cases a with
    | Met => exact absurd rfl ha
    | NotMet => simpa [List.foldl_cons, Status.bitor] using ih hs
    | Unknown => simpa [List.foldl_cons, Status.bitor] using ih hs

theorem foldl_bitor_notMet_unknown (ss : List Status) (h : Status.Met ∉ ss)
    (h2 : Status.Unknown ∈ ss) :
    ss.foldl Status.bitor Status.NotMet = Status.Unknown := by
  induction ss with
  | nil => cases h2
  | cons a ss ih =>
    have ha : a ≠ Status.Met := fun hc => h (hc ▸ List.mem_cons_self a ss)
    have hs : Status.Met ∉ ss := fun hc => h (List.mem_cons_of_mem _ hc)
    cases a with
    | Met => exact absurd rfl ha
    | NotMet =>
      rcases List.mem_cons.mp h2 with h1 | h2'
      · cases h1
      · simpa [List.foldl_cons, Status.bitor] using ih hs h2'
    | Unknown =>
      simpa [List.foldl_cons, Status.bitor] using foldl_bitor_unknown ss hs

theorem charVal_bounds (c : Char) (h : c.isDigit = true) :
    48 ≤ (c.toNat : Int) ∧ (c.toNat : Int) ≤ 57 := by
  simp only [Char.isDigit, Bool.and_eq_true, decide_eq_true_eq] at h
  obtain ⟨h1, h2⟩ := h
  have h1' : 48 ≤ c.val.toNat := h1
  have h2' : c.val.toNat ≤ 57 := h2
  have he : c.toNat = c.val.toNat := rfl
  omega

theorem accDigits_nil (acc : Int) : accDigits acc [] = acc := rfl

theorem accDigits_cons (acc : Int) (c : Char) (cs : List Char) :
    accDigits acc (c :: cs) = accDigits (10 * acc + ((c.toNat : Int) - 48)) cs := rfl

theorem negAccDigits_cons (acc : Int) (c : Char) (cs : List Char) :
    negAccDigits acc (c :: cs) = negAccDigits (10 * acc - ((c.toNat : Int) - 48)) cs := rfl

theorem accDigits_eq (l : List Char) :
    ∀ acc : Int, accDigits acc l = acc * 10 ^ l.length + digitsVal l := by
  induction l with
  | nil => intro acc; simp [accDigits, digitsVal]
  | cons c cs ih =>
    intro acc
    rw [accDigits_cons, ih]
    have hd : digitsVal (c :: cs) = ((c.toNat : Int) - 48) * 10 ^ cs.length + digitsVal cs := by
      show accDigits 0 (c :: cs) = _
      rw [accDigits_cons, ih]
      ring_nf
    rw [hd]
    simp [List.length_cons]
    ring

theorem negAccDigits_eq (l : List Char) :
    ∀ acc : Int, negAccDigits acc l = acc * 10 ^ l.length - digitsVal l := by
  induction l with
  | nil => intro acc; simp [negAccDigits, digitsVal, accDigits]
  | cons c cs ih =>
    intro acc
    rw [negAccDigits_cons, ih]
    have hd : digitsVal (c :: cs) = ((c.toNat : Int) - 48) * 10 ^ cs.length + digitsVal cs := by
      show accDigits 0 (c :: cs) = _
      rw [accDigits_cons, accDigits_eq]
      ring_nf
    rw [hd]
    simp [List.length_cons]
    ring

theorem accDigits_ge (l : List Char) :
    ∀ acc : Int, 0 ≤ acc → l.all Char.isDigit = true → acc ≤ accDigits acc l := by
  induction l with
  | nil => intro acc _ _; simp [accDigits]
  | cons c cs ih =>
    intro acc h0 hall
    rw [List.all_cons, Bool.and_eq_true] at hall
    have hb := charVal_bounds c hall.1
    rw [accDigits_cons]
    have hstep : acc ≤ 10 * acc + ((c.toNat : Int) - 48) := by omega
    have := ih (10 * acc + ((c.toNat : Int) - 48)) (by omega) hall.2
    omega

theorem negAccDigits_le (l : List Char) :
    ∀ acc : Int, acc ≤ 0 → l.all Char.isDigit = true → negAccDigits acc l ≤ acc := by
  induction l with
  | nil => intro acc _ _; simp [negAccDigits]
  | cons c cs ih =>
    intro acc h0 hall
    rw [List.all_cons, Bool.and_eq_true] at hall
    have hb := charVal_bounds c hall.1
    rw [negAccDigits_cons]
    have hstep : 10 * acc - ((c.toNat : Int) - 48) ≤ acc := by omega
    have := ih (10 * acc - ((c.toNat : Int) - 48)) (by omega) hall.2
    omega

theorem digitsVal_nonneg (l : List Char) (hall : l.all Char.isDigit = true) :
    0 ≤ digitsVal l :=
  accDigits_ge l 0 le_rfl hall

theorem parseDigits_pos (l : List Char) :
    ∀ acc : Int, 0 ≤ acc → acc ≤ i32Max →
      parseDigits true l acc =
        if l.all Char.isDigit = true ∧ accDigits acc l ≤ i32Max
        then some (accDigits acc l) else none := by
  induction l with
  | nil =>
    intro acc h0 h1
    simp [parseDigits, accDigits, h1]
  | cons c cs ih =>
    intro acc h0 h1
    by_cases hd : c.isDigit = true
    · have hb := charVal_bounds c hd
      have hmin : i32Min ≤ acc * 10 := by simp only [i32Min]; omega
      by_cases hmul : acc * 10 ≤ i32Max
      · have hminadd : i32Min ≤ acc * 10 + ((c.toNat : Int) - 48) := by
          simp only [i32Min]; omega
        by_cases hadd : acc * 10 + ((c.toNat : Int) - 48) ≤ i32Max
        · rw [show parseDigits true (c :: cs) acc =
              parseDigits true cs (acc * 10 + ((c.toNat : Int) - 48)) from by
            simp [parseDigits, charDigit, hd, checkedMulI32, checkedAddI32,
              hmin, hmul, hminadd, hadd]]
          rw [ih (acc * 10 + ((c.toNat : Int) - 48)) (by omega) hadd]
          rw [accDigits_cons]
          have hacc : 10 * acc + ((c.toNat : Int) - 48) =
              acc * 10 + ((c.toNat : Int) - 48) := by ring
          rw [hacc]
          simp [List.all_cons, hd]
        · rw [show parseDigits true (c :: cs) acc = none from by
            simp [parseDigits, charDigit, hd, checkedMulI32, checkedAddI32,
              hmin, hmul, hminadd, hadd]]
          rw [eq_comm, ite_eq_right_iff]
          rintro ⟨hall, hle⟩
          rw [List.all_cons, Bool.and_eq_true] at hall
          rw [accDigits_cons] at hle
          have := accDigits_ge cs (10 * acc + ((c.toNat : Int) - 48)) (by omega) hall.2
          omega
      · rw [show parseDigits true (c :: cs) acc = none from by
          simp [parseDigits, charDigit, hd, checkedMulI32, hmin, hmul]]
        rw [eq_comm, ite_eq_right_iff]
        rintro ⟨hall, hle⟩
        rw [List.all_cons, Bool.and_eq_true] at hall
        rw [accDigits_cons] at hle
        have := accDigits_ge cs (10 * acc + ((c.toNat : Int) - 48)) (by omega) hall.2
        omega
    · rw [show parseDigits true (c :: cs) acc = none from by
        simp [parseDigits, charDigit, hd]]
      rw [eq_comm, ite_eq_right_iff]
      rintro ⟨hall, _⟩
      rw [List.all_cons, Bool.and_eq_true] at hall
      exact (hd hall.1).elim

theorem parseDigits_neg (l : List Char) :
    ∀ acc : Int, i32Min ≤ acc → acc ≤ 0 →
      parseDigits false l acc =
        if l.all Char.isDigit = true ∧ i32Min ≤ negAccDigits acc l
        then some (negAccDigits acc l) else none := by
  induction l with
  | nil =>
    intro acc h0 h1
    simp [parseDigits, negAccDigits, h0]
  | cons c cs ih =>
    intro acc h0 h1
    by_cases hd : c.isDigit = true
    · have hb := charVal_bounds c hd
      have hmax : acc * 10 ≤ i32Max := by simp only [i32Max]; omega
      by_cases hmul : i32Min ≤ acc * 10
      · have hmaxsub : acc * 10 - ((c.toNat : Int) - 48) ≤ i32Max := by
          simp only [i32Max]; omega
        by_cases hsub : i32Min ≤ acc * 10 - ((c.toNat : Int) - 48)
        · rw [show parseDigits false (c :: cs) acc =
              parseDigits false cs (acc * 10 - ((c.toNat : Int) - 48)) from by
            simp [parseDigits, charDigit, hd, checkedMulI32, checkedSubI32,
              hmax, hmul, hmaxsub, hsub]]
          rw [ih (acc * 10 - ((c.toNat : Int) - 48)) hsub (by omega)]
          rw [negAccDigits_cons]
          have hacc : 10 * acc - ((c.toNat : Int) - 48) =
              acc * 10 - ((c.toNat : Int) - 48) := by ring
          rw [hacc]
          simp [List.all_cons, hd]
        · rw [show parseDigits false (c :: cs) acc = none from by
            simp [parseDigits, charDigit, hd, checkedMulI32, checkedSubI32,
              hmax, hmul, hmaxsub, hsub]]
          rw [eq_comm, ite_eq_right_iff]
          rintro ⟨hall, hle⟩
          rw [List.all_cons, Bool.and_eq_true] at hall
          rw [negAccDigits_cons] at hle
          have := negAccDigits_le cs (10 * acc - ((c.toNat : Int) - 48)) (by omega) hall.2
          omega
      · rw [show parseDigits false (c :: cs) acc = none from by
          simp [parseDigits, charDigit, hd, checkedMulI32, hmax, hmul]]
        rw [eq_comm, ite_eq_right_iff]
        rintro ⟨hall, hle⟩
        rw [List.all_cons, Bool.and_eq_true] at hall
        rw [negAccDigits_cons] at hle
        have := negAccDigits_le cs (10 * acc - ((c.toNat : Int) - 48)) (by omega) hall.2
        omega
    · rw [show parseDigits false (c :: cs) acc = none from by
        simp [parseDigits, charDigit, hd]]
      rw [eq_comm, ite_eq_right_iff]
      rintro ⟨hall, _⟩
      rw [List.all_cons, Bool.and_eq_true] at hall
      exact (hd hall.1).elim

theorem digitsVal_eq_accDigits (l : List Char) : digitsVal l = accDigits 0 l := rfl

theorem negAccDigits_zero (l : List Char) : negAccDigits 0 l = -digitsVal l := by
  rw [negAccDigits_eq]
  simp

theorem parseI32Chars_cons_other (c : Char) (cs : List Char)
    (hp : c ≠ '+') (hm : c ≠ '-') :
    parseI32Chars (c :: cs) = parseDigits true (c :: cs) 0 := by
  unfold parseI32Chars
  split
  · rename_i heq; simp at heq
  · rename_i heq; rw [List.cons.injEq] at heq; exact (hp heq.1).elim
  · rename_i heq; rw [List.cons.injEq] at heq; exact (hm heq.1).elim
  · rename_i heq; rw [List.cons.injEq] at heq; exact (hp heq.1).elim
  · rename_i heq; rw [List.cons.injEq] at heq; exact (hm heq.1).elim
  · rfl

theorem specParseI32Chars_cons_other (c : Char) (cs : List Char)
    (hp : c ≠ '+') (hm : c ≠ '-') :
    specParseI32Chars (c :: cs) = specSigned 1 (c :: cs) := by
  unfold specParseI32Chars
  split
  · rename_i heq; rw [List.cons.injEq] at heq; exact (hp heq.1).elim
  · rename_i heq; rw [List.cons.injEq] at heq; exact (hm heq.1).elim
  · rfl

theorem specSigned_pos (ds : List Char) (hne : ds ≠ []) :
    specSigned 1 ds =
      if ds.all Char.isDigit = true ∧ accDigits 0 ds ≤ i32Max
      then some (accDigits 0 ds) else none := by
  unfold specSigned
  rw [← digitsVal_eq_accDigits]
  by_cases hall : ds.all Char.isDigit = true
  · have hnn := digitsVal_nonneg ds hall
    have hmin : i32Min ≤ 1 * digitsVal ds := by simp only [i32Min]; omega
    by_cases hle : digitsVal ds ≤ i32Max
    · rw [if_pos ⟨hne, hall, hmin, by omega⟩, if_pos ⟨hall, hle⟩]
      simp
    · rw [if_neg (by rintro ⟨_, _, _, h4⟩; omega), if_neg (by rintro ⟨_, h2⟩; omega)]
  · rw [if_neg (by rintro ⟨_, h2, _, _⟩; exact hall h2),
       if_neg (by rintro ⟨h1, _⟩; exact hall h1)]

theorem specSigned_neg (ds : List Char) (hne : ds ≠ []) :
    specSigned (-1) ds =
      if ds.all Char.isDigit = true ∧ i32Min ≤ negAccDigits 0 ds
      then some (negAccDigits 0 ds) else none := by
  unfold specSigned
  rw [negAccDigits_zero]
  by_cases hall : ds.all Char.isDigit = true
  · have hnn := digitsVal_nonneg ds hall
    have hmax : -1 * digitsVal ds ≤ i32Max := by simp only [i32Max]; omega
    by_cases hle : i32Min ≤ -digitsVal ds
    · rw [if_pos ⟨hne, hall, by omega, hmax⟩, if_pos ⟨hall, hle⟩]
      congr 1
      omega
    · rw [if_neg (by rintro ⟨_, _, h3, _⟩; omega), if_neg (by rintro ⟨_, h2⟩; omega)]
  · rw [if_neg (by rintro ⟨_, h2, _, _⟩; exact hall h2),
       if_neg (by rintro ⟨h1, _⟩; exact hall h1)]

theorem parseI32Chars_eq_spec (l : List Char) :
    parseI32Chars l = specParseI32Chars l := by
  cases l with
  | nil => rfl
  | cons c cs =>
    by_cases hp : c = '+'
    · subst hp
      cases cs with
      | nil => rfl
      | cons d ds =>
        have hL : parseI32Chars ('+' :: d :: ds) = parseDigits true (d :: ds) 0 := rfl
        have hR : specParseI32Chars ('+' :: d :: ds) = specSigned 1 (d :: ds) := rfl
        rw [hL, hR, specSigned_pos (d :: ds) (by simp),
           parseDigits_pos (d :: ds) 0 le_rfl (by simp [i32Max])]
    · by_cases hm : c = '-'
      · subst hm
        cases cs with
        | nil => rfl
        | cons d ds =>
          have hL : parseI32Chars ('-' :: d :: ds) = parseDigits false (d :: ds) 0 := rfl
          have hR : specParseI32Chars ('-' :: d :: ds) = specSigned (-1) (d :: ds) := rfl
          rw [hL, hR, specSigned_neg (d :: ds) (by simp),
             parseDigits_neg (d :: ds) 0 (by simp [i32Min]) le_rfl]
      · rw [parseI32Chars_cons_other c cs hp hm, specParseI32Chars_cons_other c cs hp hm,
           specSigned_pos (c :: cs) (by simp),
           parseDigits_pos (c :: cs) 0 le_rfl (by simp [i32Max])]

theorem parseI32_eq_specParseI32 (s : String) : parseI32 s = specParseI32 s :=
  parseI32Chars_eq_spec s.data

mutual
theorem check_total_aux (r : Rule) (info : FactSet) :
    Rule.wellFormed r = true → (Rule.check r info).isSome = true := by
  cases r with
  | And rules =>
    intro hwf
    have h := checkList_total_aux rules info (by simpa [Rule.wellFormed] using hwf)
    cases hc : Rule.checkList rules info with
    | none => rw [hc] at h; simp at h
    | some children => simp [Rule.check, hc]
  | Or rules =>
    intro hwf
    have h := checkList_total_aux rules info (by simpa [Rule.wellFormed] using hwf)
    cases hc : Rule.checkList rules info with
    | none => rw [hc] at h; simp at h
    | some children => simp [Rule.check, hc]
  | NumberOf n rules =>
    intro hwf
    have hwf' : (decide (n ≤ rules.length) && Rule.wellFormedList rules) = true := by
      simpa [Rule.wellFormed] using hwf
    have hn : n ≤ rules.length := by
      have := (Bool.and_eq_true _ _).mp hwf'
      exact of_decide_eq_true this.1
    have h := checkList_total_aux rules info ((Bool.and_eq_true _ _).mp hwf').2
    cases hc : Rule.checkList rules info with
    | none => rw [hc] at h; simp at h
    | some children =>
      have hlen : children.length = rules.length := checkList_length rules info children hc
      by_cases hm : children.countP (fun r => r.status == Status.Met) ≥ n
      · simp [Rule.check, hc, hm]
      · have hsub : usizeSub children.length n = some (children.length - n) := by
          simp [usizeSub, hlen, hn]
        simp [Rule.check, hc, hm, hsub]
  | Leaf desc field c =>
    intro _
    cases hl : List.lookup field info with
    | none => simp [Rule.check, hl]
    | some v => simp [Rule.check, hl]

theorem checkList_total_aux (rs : List Rule) (info : FactSet) :
    Rule.wellFormedList rs = true → (Rule.checkList rs info).isSome = true := by
  cases rs with
  | nil => intro _; simp [Rule.checkList]
  | cons r rest =>
    intro hwf
    have hwf' := (Bool.and_eq_true _ _).mp (by simpa [Rule.wellFormedList] using hwf)
    have h1 := check_total_aux r info hwf'.1
    have h2 := checkList_total_aux rest info hwf'.2
    cases ha : Rule.check r info with
    | none => rw [ha] at h1; simp at h1
    | some a =>
      cases hl : Rule.checkList rest info with
      | none => rw [hl] at h2; simp at h2
      | some l => simp [Rule.checkList, ha, hl]
end

mutual
theorem check_mirrors_aux (r : Rule) (info : FactSet) :
    ∀ res, Rule.check r info = some res → Rule.mirrors r res = true := by
  cases r with
  | And rules =>
    intro res h
    cases hc : Rule.checkList rules info with
    | none => simp [Rule.check, hc] at h
    | some children =>
      simp only [Rule.check, hc, Option.some_inj] at h
      subst h
      simp only [Rule.mirrors, Bool.and_eq_true]
      exact ⟨rfl, checkList_mirrors_aux rules info children hc⟩
  | Or rules =>
    intro res h
    cases hc : Rule.checkList rules info with
    | none => simp [Rule.check, hc] at h
    | some children =>
      simp only [Rule.check, hc, Option.some_inj] at h
      subst h
      simp only [Rule.mirrors, Bool.and_eq_true]
      exact ⟨rfl, checkList_mirrors_aux rules info children hc⟩
  | NumberOf n rules =>
    intro res h
    cases hc : Rule.checkList rules info with
    | none => simp [Rule.check, hc] at h
    | some children =>
      simp only [Rule.check, hc] at h
      split at h
      · cases h
      · rename_i status _
        simp only [Option.some_inj] at h
        subst h
        simp only [Rule.mirrors, Bool.and_eq_true]
        exact ⟨beq_self_eq_true _, checkList_mirrors_aux rules info children hc⟩
  | Leaf desc field c =>
    intro res h
    cases hl : List.lookup field info with
    | none =>
      simp only [Rule.check, hl, Option.some_inj] at h
      subst h
      simp [Rule.mirrors]
    | some v =>
      simp only [Rule.check, hl, Option.some_inj] at h
      subst h
      simp [Rule.mirrors]

theorem checkList_mirrors_aux (rs : List Rule) (info : FactSet) :
    ∀ l, Rule.checkList rs info = some l → Rule.mirrorsList rs l = true := by
  cases rs with
  | nil =>
    intro l h
    simp only [Rule.checkList, Option.some_inj] at h
    subst h
    rfl
  | cons r rest =>
    intro l h
    simp only [Rule.checkList] at h
    cases ha : Rule.check r info with
    | none => rw [ha] at h; simp at h
    | some a =>
      cases hl : Rule.checkList rest info with
      | none => rw [ha, hl] at h; simp at h
      | some l2 =>
        rw [ha, hl] at h
        simp only [Option.some_inj] at h
        subst h
        simp only [Rule.mirrorsList, Bool.and_eq_true]
        exact ⟨check_mirrors_aux r info a ha, checkList_mirrors_aux rest info l2 hl⟩
end

-- ***********************************************************************
-- Claim theorems: status algebra and constraint layer
-- ***********************************************************************

/-- C7: the three-valued status AND operator and its dual, the status OR
operator, are associative and commutative as binary operations over
`{Met, NotMet, Unknown}`. -/
theorem status_ops_assoc_comm :
    (∀ a b c : Status, (a.bitand b).bitand c = a.bitand (b.bitand c))
    ∧ (∀ a b : Status, a.bitand b = b.bitand a)
    ∧ (∀ a b c : Status, (a.bitor b).bitor c = a.bitor (b.bitor c))
    ∧ (∀ a b : Status, a.bitor b = b.bitor a) :=
  ⟨fun a b c => by cases a <;> cases b <;> cases c <;> rfl,
   fun a b => by cases a <;> cases b <;> rfl,
   fun a b c => by cases a <;> cases b <;> cases c <;> rfl,
   fun a b => by cases a <;> cases b <;> rfl⟩

/-- C8: for every `Constraint` and every observed string,
`Constraint::check` is total and two-valued — it returns either `Met` or
`NotMet`, never `Unknown`; in particular an unparsable integer string under
`IntEquals` or `IntRange` yields `NotMet`, not a failure. -/
theorem constraint_check_two_valued :
    (∀ (c : Constraint) (val : String),
        Constraint.check c val = Status.Met ∨ Constraint.check c val = Status.NotMet)
    ∧ (∀ (c : Constraint) (val : String), Constraint.check c val ≠ Status.Unknown)
    ∧ (∀ (i : Int) (val : String), parseI32 val = none →
        Constraint.check (Constraint.IntEquals i) val = Status.NotMet)
    ∧ (∀ (a b : Int) (val : String), parseI32 val = none →
        Constraint.check (Constraint.IntRange a b) val = Status.NotMet) := by
  have htwo : ∀ (c : Constraint) (val : String),
      Constraint.check c val = Status.Met ∨ Constraint.check c val = Status.NotMet := by
    intro c val
    cases c with
    | StringEquals s =>
      by_cases h : val = s <;> simp [Constraint.check, h]
    | IntEquals i =>
      cases hp : parseI32 val with
      | none => simp [Constraint.check, hp]
      | some v =>
        by_cases h : v = i <;> simp [Constraint.check, hp, h]
    | IntRange a b =>
      cases hp : parseI32 val with
      | none => simp [Constraint.check, hp]
      | some v =>
        by_cases h : a ≤ v ∧ v ≤ b <;> simp [Constraint.check, hp, h]
    | Boolean b =>
      by_cases h : (val.toLower = "true") = b <;> simp [Constraint.check, h]
  refine ⟨htwo, ?_, ?_, ?_⟩
  · intro c val hc
    rcases htwo c val with h | h <;> rw [hc] at h <;> cases h
  · intro i val hp
    simp [Constraint.check, hp]
  · intro a b val hp
    simp [Constraint.check, hp]

/-- Witness for C8 at concrete inputs: `"abc"` parses to `none`, and both
integer constraints map it to `NotMet`. -/
theorem constraint_check_two_valued_witness :
    Constraint.check (Constraint.IntEquals 5) "abc" = Status.NotMet
    ∧ Constraint.check (Constraint.IntRange 1 10) "abc" = Status.NotMet :=
  ⟨constraint_check_two_valued.2.2.1 5 "abc" rfl,
   constraint_check_two_valued.2.2.2 1 10 "abc" rfl⟩

/-- C9: a leaf rule whose field is absent from the fact set evaluates to
`Unknown` regardless of the constraint; when the field is present the
status is exactly `Constraint::check` on the stored value; the result's
name is the leaf's description and it has no children. -/
theorem leaf_check_semantics :
    ∀ (desc field : String) (c : Constraint) (info : FactSet),
      (info.lookup field = none →
        Rule.check (Rule.Leaf desc field c) info = some ⟨desc, Status.Unknown, []⟩)
      ∧ (∀ v, info.lookup field = some v →
        Rule.check (Rule.Leaf desc field c) info = some ⟨desc, Constraint.check c v, []⟩) := by
  intro desc field c info
  constructor
  · intro h
    simp [Rule.check, h]
  · intro v h
    simp [Rule.check, h]

/-- Witness for C9: an absent field gives `Unknown`, a present field
delegates to the constraint. -/
theorem leaf_check_semantics_witness :
    Rule.check (Rule.Leaf "d" "f" (Constraint.Boolean true)) [] = some ⟨"d", Status.Unknown, []⟩
    ∧ Rule.check (Rule.Leaf "d" "f" (Constraint.StringEquals "x")) [("f", "x")] =
        some ⟨"d", Constraint.check (Constraint.StringEquals "x") "x", []⟩ :=
  ⟨(leaf_check_semantics "d" "f" (Constraint.Boolean true) []).1 rfl,
   (leaf_check_semantics "d" "f" (Constraint.StringEquals "x") [("f", "x")]).2 "x" rfl⟩

-- ***********************************************************************
-- Claim theorems: And / Or combinators
-- ***********************************************************************

/-- C4: an `And` node's status is the left-to-right fold of the
three-valued AND over the children's statuses starting from `Met`;
`And([])` is `Met`, any `NotMet` child forces `NotMet`, all-`Met` children
give `Met`, and otherwise (no `NotMet`, some non-`Met`) the fold is
`Unknown`. -/
theorem and_node_semantics :
    (∀ (rules : List Rule) (info : FactSet) (children : List RuleResult),
        Rule.checkList rules info = some children →
        Rule.check (Rule.And rules) info =
          some ⟨"And", (children.map RuleResult.status).foldl Status.bitand Status.Met, children⟩)
    ∧ (∀ info : FactSet, Rule.check (Rule.And []) info = some ⟨"And", Status.Met, []⟩)
    ∧ (∀ ss : List Status, Status.NotMet ∈ ss →
        ss.foldl Status.bitand Status.Met = Status.NotMet)
    ∧ (∀ ss : List Status, (∀ s ∈ ss, s = Status.Met) →
        ss.foldl Status.bitand Status.Met = Status.Met)
    ∧ (∀ ss : List Status, Status.NotMet ∉ ss → (∃ s ∈ ss, s ≠ Status.Met) →
        ss.foldl Status.bitand Status.Met = Status.Unknown) := by
  refine ⟨?_, ?_, ?_, ?_, ?_⟩
  · intro rules info children h
    simp [Rule.check, h, List.foldl_map]
  · intro info
    simp [Rule.check, Rule.checkList]
  · exact fun ss h => foldl_bitand_of_mem_notMet ss Status.Met h
  · exact foldl_bitand_all_met
  · exact foldl_bitand_met_unknown

/-- Witness for C4, exercising each hypothesis-bearing conjunct at concrete
inputs. -/
theorem and_node_semantics_witness :
    Rule.check (Rule.And [Rule.Leaf "d" "f" (Constraint.Boolean true)]) [] =
      some ⟨"And", ([Status.Unknown] : List Status).foldl Status.bitand Status.Met,
            [⟨"d", Status.Unknown, []⟩]⟩
    ∧ [Status.Unknown, Status.NotMet].foldl Status.bitand Status.Met = Status.NotMet
    ∧ [Status.Met, Status.Met].foldl Status.bitand Status.Met = Status.Met
    ∧ [Status.Met, Status.Unknown].foldl Status.bitand Status.Met = Status.Unknown :=
  ⟨by
    have := and_node_semantics.1 [Rule.Leaf "d" "f" (Constraint.Boolean true)] []
      [⟨"d", Status.Unknown, []⟩] rfl
    simpa using this,
   and_node_semantics.2.2.1 [Status.Unknown, Status.NotMet] (by simp),
   and_node_semantics.2.2.2.1 [Status.Met, Status.Met] (by simp),
   and_node_semantics.2.2.2.2 [Status.Met, Status.Unknown] (by simp)
     ⟨Status.Unknown, by simp, by simp⟩⟩

/-- C5: an `Or` node's status is the left-to-right fold of the three-valued
OR over the children's statuses starting from `NotMet`; `Or([])` is
`NotMet`, any `Met` child forces `Met`, a remaining `Unknown` gives
`Unknown`, and only all-`NotMet` children give `NotMet`. -/
theorem or_node_semantics :
    (∀ (rules : List Rule) (info : FactSet) (children : List RuleResult),
        Rule.checkList rules info = some children →
        Rule.check (Rule.Or rules) info =
          some ⟨"Or", (children.map RuleResult.status).foldl Status.bitor Status.NotMet, children⟩)
    ∧ (∀ info : FactSet, Rule.check (Rule.Or []) info = some ⟨"Or", Status.NotMet, []⟩)
    ∧ (∀ ss : List Status, Status.Met ∈ ss →
        ss.foldl Status.bitor Status.NotMet = Status.Met)
    ∧ (∀ ss : List Status, Status.Met ∉ ss → Status.Unknown ∈ ss →
        ss.foldl Status.bitor Status.NotMet = Status.Unknown)
    ∧ (∀ ss : List Status, (∀ s ∈ ss, s = Status.NotMet) →
        ss.foldl Status.bitor Status.NotMet = Status.NotMet) := by
  refine ⟨?_, ?_, ?_, ?_, ?_⟩
  · intro rules info children h
    simp [Rule.check, h, List.foldl_map]
  · intro info
    simp [Rule.check, Rule.checkList]
  · exact fun ss h => foldl_bitor_of_mem_met ss Status.NotMet h
  · exact foldl_bitor_notMet_unknown
  · exact foldl_bitor_all_notMet

/-- Witness for C5, exercising each hypothesis-bearing conjunct at concrete
inputs. -/
theorem or_node_semantics_witness :
    Rule.check (Rule.Or [Rule.Leaf "d" "f" (Constraint.Boolean true)]) [] =
      some ⟨"Or", ([Status.Unknown] : List Status).foldl Status.bitor Status.NotMet,
            [⟨"d", Status.Unknown, []⟩]⟩
    ∧ [Status.Unknown, Status.Met].foldl Status.bitor Status.NotMet = Status.Met
    ∧ [Status.NotMet, Status.Unknown].foldl Status.bitor Status.NotMet = Status.Unknown
    ∧ [Status.NotMet, Status.NotMet].foldl Status.bitor Status.NotMet = Status.NotMet :=
  ⟨by
    have := or_node_semantics.1 [Rule.Leaf "d" "f" (Constraint.Boolean true)] []
      [⟨"d", Status.Unknown, []⟩] rfl
    simpa using this,
   or_node_semantics.2.2.1 [Status.Unknown, Status.Met] (by simp),
   or_node_semantics.2.2.2.1 [Status.NotMet, Status.Unknown] (by simp) (by simp),
   or_node_semantics.2.2.2.2 [Status.NotMet, Status.NotMet] (by simp)⟩

-- ***********************************************************************
-- Claim theorems: totality and the NumberOf combinator
-- ***********************************************************************

/-- C1 counterexample: evaluation is not total.  At the rule
`NumberOf { n: 1, rules: vec![] }` the else-branch subtraction
`children.len() - count` underflows (`0 - 1` on `usize`), so `Rule::check`
does not return a `RuleResult` — in the embedding the evaluation is
`none`. -/
theorem check_not_total_counterexample :
    Rule.check (Rule.NumberOf 1 []) [] = none := rfl

/-- C1 amended: on every rule tree in which each `NumberOf` threshold is at
most its child count, `Rule::check` succeeds on every fact set and returns
a `RuleResult`. -/
theorem check_total_of_wellFormed :
    ∀ r : Rule, Rule.wellFormed r = true → ∀ info : FactSet,
      ∃ res, Rule.check r info = some res := by
  intro r hwf info
  have h := check_total_aux r info hwf
  cases hc : Rule.check r info with
  | none => rw [hc] at h; simp at h
  | some res => exact ⟨res, rfl⟩

/-- Witness for amended C1: the demonstration tree of `src/main.rs` is
well-formed and evaluates to a result on the demonstration facts. -/
theorem check_total_of_wellFormed_witness :
    Rule.wellFormed demoTree = true
    ∧ ∃ res, Rule.check demoTree demoFacts = some res :=
  ⟨rfl, check_total_of_wellFormed demoTree rfl demoFacts⟩

/-- C2 counterexample: an oversized threshold never resolves to `NotMet`.
`NumberOf { n: 3, rules }` over two children that both evaluate to `NotMet`
(all of them — certainly "enough") produces no status at all: the
subtraction `2 - 3` on `usize` underflows, so evaluation is `none` rather
than a `NotMet` result. -/
theorem numberOf_oversized_counterexample :
    (Rule.check (Rule.Leaf "a" "f" (Constraint.StringEquals "x")) [("f", "y")]).map
        RuleResult.status = some Status.NotMet
    ∧ (Rule.check (Rule.Leaf "b" "f" (Constraint.StringEquals "x")) [("f", "y")]).map
        RuleResult.status = some Status.NotMet
    ∧ Rule.check
        (Rule.NumberOf 3 [Rule.Leaf "a" "f" (Constraint.StringEquals "x"),
                          Rule.Leaf "b" "f" (Constraint.StringEquals "x")])
        [("f", "y")] = none :=
  ⟨rfl, rfl, rfl⟩

/-- C2 amended: for every `NumberOf` node whose threshold `n` strictly
exceeds the number of children, and every fact set, evaluation yields no
status at all: `met_count` can never reach `n`, so the underflowing
subtraction `children.len() - n` is always hit (an arithmetic-overflow
panic in the source, `none` here) — the node never becomes `Met` and never
becomes `NotMet`. -/
theorem numberOf_oversized_no_status :
    ∀ (n : Nat) (rules : List Rule) (info : FactSet), rules.length < n →
      Rule.check (Rule.NumberOf n rules) info = none := by
  intro n rules info hlt
  cases hc : Rule.checkList rules info with
  | none => simp [Rule.check, hc]
  | some children =>
    have hlen : children.length = rules.length := checkList_length rules info children hc
    have hm : ¬ children.countP (fun r => r.status == Status.Met) ≥ n := by
      have hle : children.countP (fun r => r.status == Status.Met) ≤ children.length :=
        List.countP_le_length _
      omega
    have hsub : usizeSub children.length n = none := by
      simp only [usizeSub, ite_eq_right_iff]
      intro hle
      omega
    simp [Rule.check, hc, hm, hsub]

/-- Witness for amended C2 at `n = 2` over an empty child list. -/
theorem numberOf_oversized_no_status_witness :
    Rule.check (Rule.NumberOf 2 []) [] = none :=
  numberOf_oversized_no_status 2 [] [] (by decide)

/-- C3 counterexample: the claimed universal formula predicts a status for
`NumberOf { n: 2, rules: vec![] }` (with `met_count = failed_count = 0` and
`children.length - n` read over the integers, `0 > -2` gives `NotMet`), but
the code produces no status at all there: the `usize` subtraction `0 - 2`
underflows and evaluation is `none`. -/
theorem numberOf_formula_counterexample :
    Rule.check (Rule.NumberOf 2 []) [] = none ∧
    (Rule.check (Rule.NumberOf 2 []) []).map RuleResult.status ≠ some Status.NotMet :=
  ⟨rfl, by decide⟩

/-- C3 amended: restricted to thresholds within the child count — for every
`NumberOf(n, children)` node with `n ≤ children.length` and every fact set,
the status is `Met` if `met_count ≥ n`, else `NotMet` if
`failed_count > children.length - n`, else `Unknown`; `NumberOf(0, _)` is
always `Met`; and with `1 ≤ n ≤ children.length` and all children
`Unknown` the status is `Unknown`. -/
theorem numberOf_status_formula :
    (∀ (n : Nat) (rules : List Rule) (info : FactSet) (children : List RuleResult),
        Rule.checkList rules info = some children → n ≤ rules.length →
        Rule.check (Rule.NumberOf n rules) info =
          some ⟨numberOfName n,
                (if children.countP (fun r => r.status == Status.Met) ≥ n then Status.Met
                 else if children.countP (fun r => r.status == Status.NotMet) >
                        rules.length - n
                 then Status.NotMet
                 else Status.Unknown),
                children⟩)
    ∧ (∀ (rules : List Rule) (info : FactSet) (children : List RuleResult),
        Rule.checkList rules info = some children →
        (Rule.check (Rule.NumberOf 0 rules) info).map RuleResult.status = some Status.Met)
    ∧ (∀ (n : Nat) (rules : List Rule) (info : FactSet) (children : List RuleResult),
        Rule.checkList rules info = some children →
        1 ≤ n → n ≤ rules.length →
        (∀ c ∈ children, c.status = Status.Unknown) →
        (Rule.check (Rule.NumberOf n rules) info).map RuleResult.status =
          some Status.Unknown) := by
  have hmain : ∀ (n : Nat) (rules : List Rule) (info : FactSet)
      (children : List RuleResult),
      Rule.checkList rules info = some children → n ≤ rules.length →
      Rule.check (Rule.NumberOf n rules) info =
        some ⟨numberOfName n,
              (if children.countP (fun r => r.status == Status.Met) ≥ n then Status.Met
               else if children.countP (fun r => r.status == Status.NotMet) >
                      rules.length - n
               then Status.NotMet
               else Status.Unknown),
              children⟩ := by
    intro n rules info children hc hn
    have hlen : children.length = rules.length := checkList_length rules info children hc
    by_cases hm : children.countP (fun r => r.status == Status.Met) ≥ n
    · simp [Rule.check, hc, hm]
    · have hsub : usizeSub children.length n = some (rules.length - n) := by
        simp [usizeSub, hlen, hn]
      by_cases hf : children.countP (fun r => r.status == Status.NotMet) > rules.length - n
      · simp [Rule.check, hc, hm, hsub, hf]
      · simp [Rule.check, hc, hm, hsub, hf]
  refine ⟨hmain, ?_, ?_⟩
  · intro rules info children hc
    rw [hmain 0 rules info children hc (Nat.zero_le _)]
    simp
  · intro n rules info children hc h1 hn hall
    rw [hmain n rules info children hc hn]
    have hmet : children.countP (fun r => r.status == Status.Met) = 0 := by
      rw [List.countP_eq_zero]
      intro c hcmem
      simp [hall c hcmem]
    have hfail : children.countP (fun r => r.status == Status.NotMet) = 0 := by
      rw [List.countP_eq_zero]
      intro c hcmem
      simp [hall c hcmem]
    simp [hmet, hfail]
    omega

/-- Witness for amended C3, exercising all three conjuncts at concrete
inputs. -/
theorem numberOf_status_formula_witness :
    Rule.check (Rule.NumberOf 1 [Rule.Leaf "d" "f" (Constraint.Boolean true)]) [] =
      some ⟨numberOfName 1,
            (if ([⟨"d", Status.Unknown, []⟩] : List RuleResult).countP
                  (fun r => r.status == Status.Met) ≥ 1 then Status.Met
             else if ([⟨"d", Status.Unknown, []⟩] : List RuleResult).countP
                  (fun r => r.status == Status.NotMet) >
                    [Rule.Leaf "d" "f" (Constraint.Boolean true)].length - 1
             then Status.NotMet
             else Status.Unknown),
            [⟨"d", Status.Unknown, []⟩]⟩
    ∧ (Rule.check (Rule.NumberOf 0 []) []).map RuleResult.status = some Status.Met
    ∧ (Rule.check (Rule.NumberOf 1 [Rule.Leaf "d" "f" (Constraint.Boolean true)]) []).map
        RuleResult.status = some Status.Unknown :=
  ⟨numberOf_status_formula.1 1 [Rule.Leaf "d" "f" (Constraint.Boolean true)] []
      [⟨"d", Status.Unknown, []⟩] rfl (by decide),
   numberOf_status_formula.2.1 [] [] [] rfl,
   numberOf_status_formula.2.2 1 [Rule.Leaf "d" "f" (Constraint.Boolean true)] []
      [⟨"d", Status.Unknown, []⟩] rfl (by decide) (by decide) (by decide)⟩

/-- C6: whenever `Rule::check` returns a result tree, that tree mirrors the
rule tree's shape 1:1 — same branching factor at every node, children in
the same order (one result per child rule, so every child is evaluated),
with node names `"And"`, `"Or"`, `"At least {n} of"`, and the leaf's
description, leaves having no result children. -/
theorem check_mirrors_shape :
    ∀ (r : Rule) (info : FactSet) (res : RuleResult),
      Rule.check r info = some res → Rule.mirrors r res = true :=
  fun r info res h => check_mirrors_aux r info res h

/-- Witness for C6: the demonstration tree's result mirrors its shape. -/
theorem check_mirrors_shape_witness :
    Rule.mirrors demoTree
      ⟨"And", Status.Met,
        [⟨"Name is John Doe", Status.Met, []⟩,
         ⟨"Or", Status.Met,
           [⟨"Favorite number is 10", Status.Met, []⟩,
            ⟨"Fav number between 11 and 16", Status.NotMet, []⟩]⟩]⟩ = true :=
  check_mirrors_shape demoTree demoFacts _ rfl

theorem int_parsing_strict_32bit :
    (∀ s : String, parseI32 s = specParseI32 s)
    ∧ (∀ (i : Int) (s : String), specParseI32 s = none →
        Constraint.check (Constraint.IntEquals i) s = Status.NotMet)
    ∧ (∀ (a b : Int) (s : String), specParseI32 s = none →
        Constraint.check (Constraint.IntRange a b) s = Status.NotMet)
    ∧ Constraint.check (Constraint.IntEquals 5) " 5" = Status.NotMet
    ∧ Constraint.check (Constraint.IntEquals 5) "5.0" = Status.NotMet
    ∧ (∀ i : Int, Constraint.check (Constraint.IntEquals i) "2147483648" = Status.NotMet)
    ∧ Constraint.check (Constraint.IntEquals 5) "+5" = Status.Met
    ∧ Constraint.check (Constraint.IntEquals 5) "05" = Status.Met := by
  refine ⟨parseI32_eq_specParseI32, ?_, ?_, by decide, by decide, ?_, by decide, by decide⟩
  · intro i s h
    have hp : parseI32 s = none := by rw [parseI32_eq_specParseI32]; exact h
    simp [Constraint.check, hp]
  · intro a b s h
    have hp : parseI32 s = none := by rw [parseI32_eq_specParseI32]; exact h
    simp [Constraint.check, hp]
  · intro i
    have hp : parseI32 "2147483648" = none := rfl
    simp [Constraint.check, hp]

/-- Witness for C10 at a concrete unparsable string. -/
theorem int_parsing_strict_32bit_witness :
    Constraint.check (Constraint.IntEquals 7) "x" = Status.NotMet
    ∧ Constraint.check (Constraint.IntRange 1 2) "x" = Status.NotMet :=
  ⟨int_parsing_strict_32bit.2.1 7 "x" rfl,
   int_parsing_strict_32bit.2.2.1 1 2 "x" rfl⟩
